import Mathlib

/-!
Shallow embedding of the NepsisAI decision-reasoning kernel
(src/nepsis) in Lean 4, with theorems checking the natural-language
specification against the code.

Conventions of the embedding:
- Python floats are modelled as rationals (ℚ); all arithmetic in the
  embedded code paths is exact rational arithmetic.
- numpy arrays are modelled as `List ℚ`, matrices as `List (List ℚ)`.
- Comparisons of a Euclidean norm against a nonnegative bound are
  modelled by comparing the squared norm against the squared bound
  (equivalent, and stays inside ℚ).
- Transcendental operations that cannot be represented in ℚ
  (np.exp inside softmax, np.log inside entropy, np.sqrt inside a norm
  used as a value, Python string hashing) are threaded through as
  explicit function parameters; every theorem quantifies over them.
- Fallible Python code (assertion failures, exceptions) returns Option.
-/

namespace Nepsis

/-! ### Configuration constants (src/nepsis/core/config.py) -/

def RED_RUIN_THRESHOLD : ℚ := 1/2
def COLLAPSE_MAX_RUIN : ℚ := 1/10
def COLLAPSE_MIN_TOP : ℚ := 4/5
def COLLAPSE_MAX_CONTRA : ℚ := 1/4
def HICKAM_MASS_THRESH : ℚ := 17/20
def HICKAM_MAX_PAIR_XI : ℚ := 2/5
def ZERO_BACK_CONTRA : ℚ := 7/10

/-! ### Data model (src/nepsis/core/types.py) -/

/-- SignalType enum. -/
inductive SignalType where
  | vital
  | lab
  | symptom
  | imaging
  | history
  | red
  deriving DecidableEq, Repr

/-- The string value of each SignalType member. -/
def SignalType.strValue : SignalType → String
  | .vital => "vital"
  | .lab => "lab"
  | .symptom => "symptom"
  | .imaging => "imaging"
  | .history => "history"
  | .red => "red"

/-- SignalType(s): the enum member whose value is the string s, if any. -/
def signalTypeOfString (s : String) : Option SignalType :=
  if s = "vital" then some .vital
  else if s = "lab" then some .lab
  else if s = "symptom" then some .symptom
  else if s = "imaging" then some .imaging
  else if s = "history" then some .history
  else if s = "red" then some .red
  else none

/-- The `type` field of a Signal is either a SignalType enum member or a
custom string (the duck-typed `SignalType | str` of the source). -/
def SigTy : Type := SignalType ⊕ String

instance : DecidableEq SigTy := inferInstanceAs (DecidableEq (SignalType ⊕ String))

/-- Signal dataclass. The opaque metadata dict is not modelled. -/
structure Signal where
  type : SigTy
  name : String
  value : ℚ
  timestamp : Option ℚ := none
  red_threshold : Option ℚ := none
  deriving DecidableEq

/-- Signal construction including `__post_init__`: a string type that
matches a SignalType value is converted to the enum member; other
strings are kept as custom types. -/
def mkSignal (ty : SigTy) (name : String) (value : ℚ)
    (timestamp : Option ℚ := none) (red_threshold : Option ℚ := none) : Signal :=
  match ty with
  | .inl st => ⟨.inl st, name, value, timestamp, red_threshold⟩
  | .inr s =>
    match signalTypeOfString s with
    | some st => ⟨.inl st, name, value, timestamp, red_threshold⟩
    | none => ⟨.inr s, name, value, timestamp, red_threshold⟩

/-- Python equality between the duck-typed Signal.type field and a string:
an enum member never equals a string, a custom string compares as a string. -/
def sigTyEqStr (t : SigTy) (s : String) : Bool :=
  match t with
  | .inl _ => false
  | .inr x => x == s

/-- Hypothesis dataclass. `expects` is the expectation map used only for
exclusivity inference; its values are opaque and only equality-compared,
modelled here with Int values. Metadata is not modelled. -/
structure Hypothesis where
  id : String
  name : String
  prior : ℚ := 0
  expects : List (String × Int) := []
  deriving DecidableEq

/-- CollapseMode enum. -/
inductive CollapseMode where
  | occam
  | hickam
  | zeroback
  deriving DecidableEq, Repr

/-! ### List helpers shared by the embedding -/

/-- Element i of a vector, 0 outside bounds (the embedded code only reads
in-bounds positions on the inputs the theorems consider). -/
def vget (p : List ℚ) (i : ℕ) : ℚ := p.getD i 0

/-- Entry (i, j) of a matrix. -/
def mget (M : List (List ℚ)) (i j : ℕ) : ℚ := vget (M.getD i []) j

/-- A matrix is square of size n: n rows, each of length n
(numpy `matrix.shape == (n, n)`). -/
def squareOf (M : List (List ℚ)) (n : ℕ) : Bool :=
  M.length == n && M.all (fun row => row.length == n)

/-- numpy max of a 1-D array (the source never takes it of an empty
array on the paths the theorems consider; 0 is returned there). -/
def listMax (l : List ℚ) : ℚ :=
  match l with
  | [] => 0
  | x :: xs => xs.foldl max x

/-- numpy argmax: index of the first maximal entry. -/
def argmaxFirst (l : List ℚ) : ℕ :=
  (List.range l.length).foldl
    (fun best i => if vget l i > vget l best then i else best) 0

/-- Python dict {h: i for i, h in enumerate(ids)}: the index of the last
occurrence of key h in ids, if present. -/
def dictIndex (ids : List String) (h : String) : Option ℕ :=
  (List.range ids.length).foldl
    (fun acc i => if ids.getD i "" = h then some i else acc) none

/-- Squared L2 distance between two equal-length vectors
(numpy norm of the difference, squared). -/
def l2sq (a b : List ℚ) : ℚ :=
  ((a.zipWith (fun x y => (x - y) ^ 2) b)).sum

/-- Python set equality on the underlying id sets. -/
def listSetEq (a b : List String) : Bool :=
  a.all (· ∈ b) && b.all (· ∈ a)

/-- Clamp to [0, 1] (max(0.0, min(1.0, x))). -/
def clamp01 (x : ℚ) : ℚ := max 0 (min 1 x)

/-- Build an n x n matrix from an entry function. -/
def mkMat (n : ℕ) (f : ℕ → ℕ → ℚ) : List (List ℚ) :=
  (List.range n).map fun r => (List.range n).map fun c => f r c

/-! ### Exclusivity (src/nepsis/core/exclusivity_builder.py) -/

/-- numpy allclose on two scalars with the default tolerances
rtol=1e-05, atol=1e-08: |a - b| <= atol + rtol * |b|. -/
def allcloseScalar (a b : ℚ) : Bool :=
  |a - b| ≤ 1/100000000 + (1/100000) * |b|

/-- np.allclose(matrix, matrix.T) over an n x n matrix. -/
def allcloseSym (M : List (List ℚ)) (n : ℕ) : Bool :=
  (List.range n).all fun i => (List.range n).all fun j =>
    allcloseScalar (mget M i j) (mget M j i)

/-- np.allclose(np.diag(matrix), 0.0) over an n x n matrix. -/
def allcloseDiagZero (M : List (List ℚ)) (n : ℕ) : Bool :=
  (List.range n).all fun i => allcloseScalar (mget M i i) 0

/-- Typed exclusivity matrix with hypothesis ordering. -/
structure Exclusivity where
  ids : List String
  matrix : List (List ℚ)
  default : ℚ := 0
  deriving DecidableEq

/-- The three `assert` checks of Exclusivity.__init__: matrix shape is
(len(ids), len(ids)), allclose to its transpose, diagonal allclose to 0. -/
def exclusivityValid (ids : List String) (matrix : List (List ℚ)) : Bool :=
  squareOf matrix ids.length
    && allcloseSym matrix ids.length
    && allcloseDiagZero matrix ids.length

/-- Exclusivity construction: none models an assertion failure. -/
def Exclusivity.mk? (ids : List String) (matrix : List (List ℚ))
    (deflt : ℚ := 0) : Option Exclusivity :=
  if exclusivityValid ids matrix then some ⟨ids, matrix, deflt⟩ else none

/-- Exclusivity.get: symmetric-intent O(1) lookup; the configured default
for any unknown id, otherwise the (i, j) matrix entry through the
id -> index dict. -/
def Exclusivity.get (E : Exclusivity) (h1 h2 : String) : ℚ :=
  match dictIndex E.ids h1, dictIndex E.ids h2 with
  | some i, some j => mget E.matrix i j
  | _, _ => E.default

/-- One pair rule (a, b, xi) applied to the matrix: both symmetric entries
are set to the clamped value when both ids are known. -/
def applyPairRule (idx : String → Option ℕ) (M : List (List ℚ))
    (rule : String × String × ℚ) : List (List ℚ) :=
  match idx rule.1, idx rule.2.1 with
  | some i, some j =>
    let xiC := clamp01 rule.2.2
    mkMat M.length fun r c =>
      if (r = i ∧ c = j) ∨ (r = j ∧ c = i) then xiC else mget M r c
  | _, _ => M

/-- One group rule: every ordered-within-group pair gets the clamped group
value, taking the max with the value already present. -/
def applyGroupRule (idx : String → Option ℕ) (M : List (List ℚ))
    (rule : List String × ℚ) : List (List ℚ) :=
  let xiC := clamp01 rule.2
  let pairs : List (String × String) :=
    (List.range rule.1.length).flatMap fun a =>
      (List.range rule.1.length).filterMap fun b =>
        if a < b then some (rule.1.getD a "", rule.1.getD b "") else none
  pairs.foldl
    (fun M ab =>
      match idx ab.1, idx ab.2 with
      | some i, some j =>
        let v := max (mget M i j) xiC
        mkMat M.length fun r c =>
          if (r = i ∧ c = j) ∨ (r = j ∧ c = i) then v else mget M r c
      | _, _ => M)
    M

/-- build_exclusivity_from_rules: zero matrix, pair rules, group rules,
diagonal forced to zero, then Exclusivity construction (whose asserts
always pass on this matrix shape). -/
def build_exclusivity_from_rules (ids : List String)
    (pairs : List (String × String × ℚ) := [])
    (groups : List (List String × ℚ) := [])
    (deflt : ℚ := 0) : Exclusivity :=
  let n := ids.length
  let idx := dictIndex ids
  let M0 : List (List ℚ) := mkMat n fun _ _ => 0
  let M1 := pairs.foldl (applyPairRule idx) M0
  let M2 := groups.foldl (applyGroupRule idx) M1
  let M3 := mkMat n fun r c => if r = c then 0 else mget M2 r c
  ⟨ids, M3, deflt⟩

/-- Python dict insertion: first insertion fixes the key order, a later
insertion of the same key overwrites the value in place. -/
def dictInsert (d : List (String × Hypothesis)) (k : String) (v : Hypothesis) :
    List (String × Hypothesis) :=
  if d.any (fun p => p.1 == k) then
    d.map (fun p => if p.1 == k then (k, v) else p)
  else d ++ [(k, v)]

/-- The dict {h.id: h for h in hypotheses}. -/
def hyposDict (hs : List Hypothesis) : List (String × Hypothesis) :=
  hs.foldl (fun d h => dictInsert d h.id h) []

/-- dict.get for the optional signal_weights map, default 1.0. -/
def weightOf (sw : Option (List (String × ℚ))) (k : String) : ℚ :=
  match sw with
  | none => 1
  | some w => (w.lookup k).getD 1

/-- The keys an expectation dict holds (expectation maps are dicts, so
keys are unique; dedup keeps the embedding total on arbitrary lists). -/
def expectKeys (h : Hypothesis) : List String :=
  (h.expects.map Prod.fst).dedup

/-- Value an expectation dict assigns to a key. -/
def expectVal (h : Hypothesis) (k : String) : Option Int :=
  h.expects.lookup k

/-- Exclusivity of one hypothesis pair inferred from expectations:
the signal-weighted fraction of shared expectation keys on which the two
hypotheses disagree; 0 with no shared keys or zero total weight. -/
def inferPairXi (sw : Option (List (String × ℚ))) (hi hj : Hypothesis) : ℚ :=
  let common := (expectKeys hi).filter (fun k => k ∈ expectKeys hj)
  if common.isEmpty then 0
  else
    let weightSum := (common.map (weightOf sw)).sum
    let conflict := (common.map (fun k =>
      if expectVal hi k ≠ expectVal hj k then weightOf sw k else 0)).sum
    if weightSum > 0 then conflict / weightSum else 0

/-- infer_exclusivity_from_expectations over the hypotheses dict. -/
def infer_exclusivity_from_expectations (hypos : List (String × Hypothesis))
    (sw : Option (List (String × ℚ)) := none) (deflt : ℚ := 0) : Exclusivity :=
  let ids := hypos.map Prod.fst
  let n := ids.length
  let hyp := fun i => (hypos.getD i ("", ⟨"", "", 0, []⟩)).2
  let M := mkMat n fun i j =>
    if i = j then 0
    else if i < j then inferPairXi sw (hyp i) (hyp j)
    else inferPairXi sw (hyp j) (hyp i)
  ⟨ids, M, deflt⟩

/-! ### State (src/nepsis/core/types.py) -/

/-- Complete reasoning state at a time step. The `_index` dict is not a
separate field: `ensure_index` keeps it equal to the positional
id -> index map of the current hypothesis list, so lookups are modelled
positionally (through `dictIndex` on the id list where the source goes
through the dict). The metadata bag is not modelled (only the legacy
`collapse` helper writes it). -/
structure State where
  hypotheses : List Hypothesis
  priors : List ℚ
  posteriors : List ℚ
  interpretant_states : List ℚ
  interpretant_dim : ℕ := 16
  likelihoods : List ℚ := []
  coherence_scores : List ℚ := []
  exclusivity : Option Exclusivity := none
  contradiction_density : ℚ := 0
  lyapunov_value : ℚ := 0
  lyapunov_stable : Bool := false
  ruin_prob : ℚ := 0
  step_num : ℕ := 0
  collapse_mode : CollapseMode := .occam
  red_preempted : Bool := false
  posterior_history : List (List ℚ) := []
  deriving DecidableEq

/-- State.from_hypotheses: priors normalized (uniform when the prior mass
is not positive), posteriors = priors, uniform interpretant vector,
likelihoods and coherence all ones. -/
def State.from_hypotheses (hypotheses : List Hypothesis)
    (interpretant_dim : ℕ := 16) : State :=
  let n := hypotheses.length
  let raw := hypotheses.map (·.prior)
  let priors := if raw.sum > 0 then raw.map (· / raw.sum)
    else (List.range n).map fun _ => 1 / (n : ℚ)
  { hypotheses := hypotheses
    priors := priors
    posteriors := priors
    interpretant_states := (List.range interpretant_dim).map fun _ =>
      1 / (interpretant_dim : ℚ)
    interpretant_dim := interpretant_dim
    likelihoods := (List.range n).map fun _ => 1
    coherence_scores := (List.range n).map fun _ => 1 }

/-- ensure_exclusivity: infer an exclusivity from expectations when none
is set; when the stored exclusivity no longer matches the hypothesis id
set, rebuild a matrix of the new size copying every pair whose both
endpoints are still known (the rebuilt matrix passes the constructor
asserts by construction). `ensure_index` needs no model (see State). -/
def ensure_exclusivity (s : State) : State :=
  let hypIds := s.hypotheses.map (·.id)
  match s.exclusivity with
  | none =>
    { s with exclusivity := some (infer_exclusivity_from_expectations (hyposDict s.hypotheses)) }
  | some old =>
    if listSetEq old.ids hypIds then s
    else
      let n := hypIds.length
      let known := fun (h : String) => (dictIndex old.ids h).isSome
      let M := mkMat n fun i j =>
        if i = j then 0
        else if known (hypIds.getD i "") ∧ known (hypIds.getD j "") then
          (if i < j then old.get (hypIds.getD i "") (hypIds.getD j "")
           else old.get (hypIds.getD j "") (hypIds.getD i ""))
        else 0
      { s with exclusivity := some ⟨hypIds, M, old.default⟩ }

/-! ### Math utilities (src/nepsis/utils/math.py) -/

/-- normalize: divide by the sum, uniform fallback when the sum is below
eps = 1e-10. -/
def normalize (x : List ℚ) : List ℚ :=
  if x.sum < 1/10000000000 then x.map (fun _ => 1 / (x.length : ℚ))
  else x.map (· / x.sum)

/-! ### Red channel (src/nepsis/channels/red.py) -/

/-- check_red_preempt: true when a red threshold is set and the value
reaches it, or when the type field compares equal to the string "red"
(an enum member never does; see sigTyEqStr). -/
def check_red_preempt (sig : Signal) : Bool :=
  (match sig.red_threshold with
   | some th => decide (sig.value ≥ th)
   | none => false)
  || sigTyEqStr sig.type "red"

/-- compute_ruin_probability: +0.1 capped at 1 when the signal red-preempts,
then + (rho - 0.5) * 0.05 capped at 1 when contradiction density
exceeds 0.5. -/
def compute_ruin_probability (s : State) (current_ruin : ℚ := 0)
    (sig : Option Signal := none) : ℚ :=
  let afterRed :=
    match sig with
    | some g => if check_red_preempt g then min 1 (current_ruin + 1/10) else current_ruin
    | none => current_ruin
  if s.contradiction_density > 1/2 then
    min 1 (afterRed + (s.contradiction_density - 1/2) * (1/20))
  else afterRed

/-! ### Contradiction density (src/nepsis/core/contradiction.py) -/

/-- The quadratic form p^T M p. -/
def quadForm (p : List ℚ) (M : List (List ℚ)) : ℚ :=
  ((List.range p.length).map fun i =>
    vget p i * ((List.range p.length).map fun j => mget M i j * vget p j).sum).sum

/-- compute_contradiction_density: 0 with fewer than two hypotheses,
otherwise ensure the exclusivity is synced and return
clamp(0.5 * p^T Xi p); the returned State carries the density field and
any exclusivity the sync created (the source mutates in place). -/
def compute_contradiction_density (s : State) : State × ℚ :=
  if s.hypotheses.length < 2 then ({ s with contradiction_density := 0 }, 0)
  else
    let s := ensure_exclusivity s
    let M := (s.exclusivity.getD ⟨[], [], 0⟩).matrix
    let rho := clamp01 ((1/2) * quadForm s.posteriors M)
    ({ s with contradiction_density := rho }, rho)

/-! ### Interpretant layer (src/nepsis/core/interpretant.py) -/

/-- apply_interpretant with the default (uniform 1/dim) gating matrix:
returns the modulated signal vector and the exponentially smoothed
interpretant vector, alpha = 0.3. -/
def apply_interpretant (s : State) (sig : Signal) : List ℚ × List ℚ :=
  let nHyp := s.hypotheses.length
  let iDim := s.interpretant_dim
  -- I @ Gamma with Gamma = ones(iDim, nHyp)/iDim: every component is sum(I)/iDim
  let interpretantUpdate := (List.range nHyp).map fun _ =>
    s.interpretant_states.sum / (iDim : ℚ)
  let meanUpdate := interpretantUpdate.sum / (nHyp : ℚ)
  let modulated := (List.range nHyp).map fun _ => sig.value * meanUpdate
  let newInterpretant :=
    (s.interpretant_states.zipWith
      (fun old normed => (1 - 3/10) * old + (3/10) * normed)
      (normalize (s.interpretant_states.map (· * sig.value))))
  (modulated, newInterpretant)

/-- coherence_score with the default (uniform 1/dim) compatibility matrix:
normalize((I @ C) * softmax(likelihoods, temperature=0.5)). The softmax
(np.exp based) is the `softmaxFn` parameter, applied to the likelihood
list and the temperature 1/2. -/
def coherence_score (softmaxFn : List ℚ → ℚ → List ℚ) (s : State)
    (likelihoods : List ℚ) : List ℚ :=
  let nHyp := s.hypotheses.length
  let contrib := (List.range nHyp).map fun _ =>
    s.interpretant_states.sum / (s.interpretant_dim : ℚ)
  let weights := softmaxFn likelihoods (1/2)
  normalize (contrib.zipWith (· * ·) weights)

/-! ### Blue channel (src/nepsis/channels/blue.py) -/

/-- compute_likelihood: min(1, value/10) scaled by a pseudo-random factor
0.5 + (hash(id) mod 100)/100, clamped to [0.01, 1]. Python string
hashing is the `hashFn` parameter. -/
def compute_likelihood (hashFn : String → ℕ) (sig : Signal) (hid : String) : ℚ :=
  let base := min 1 (sig.value / 10)
  let variation := ((hashFn hid % 100 : ℕ) : ℚ) / 100
  max (1/100) (min 1 (base * (1/2 + variation)))

/-- process_blue_channel: interpretant modulation, per-hypothesis
likelihoods, coherence scores, posterior proportional to
prior * likelihood * coherence^lambda then normalized, contradiction
recomputed, history appended, priors set to the new posteriors, step
counter incremented. The coherence exponent is a float defaulting to
1.0 in the source; it is modelled with a natural exponent, which covers
every kernel call site (all use the default). -/
def process_blue_channel (softmaxFn : List ℚ → ℚ → List ℚ)
    (hashFn : String → ℕ) (s : State) (sig : Signal)
    (lambda_coherence : ℕ := 1) : State :=
  let (_, newInterpretant) := apply_interpretant s sig
  let likelihoods := s.hypotheses.map fun h => compute_likelihood hashFn sig h.id
  let coherenceScores := coherence_score softmaxFn s likelihoods
  let posteriors := normalize
    ((s.priors.zipWith (· * ·) likelihoods).zipWith
      (fun x c => x * c ^ lambda_coherence) coherenceScores)
  let s1 := { s with
    posteriors := posteriors
    interpretant_states := newInterpretant
    likelihoods := likelihoods
    coherence_scores := coherenceScores }
  let s2 := (compute_contradiction_density s1).1
  { s2 with
    posterior_history := s2.posterior_history ++ [posteriors]
    step_num := s2.step_num + 1
    priors := posteriors }

/-! ### Lyapunov controller (src/nepsis/control/lyapunov.py) -/

/-- Weights for the Lyapunov function components. -/
structure LyapunovWeights where
  contradiction : ℚ := 2
  entropy : ℚ := 1
  coherence : ℚ := 3/2
  velocity : ℚ := 1/2

/-- compute_lyapunov:
V = wc * rho + we * H(posteriors) + wh * mean|coherence - posteriors|
  + wv * norm(posteriors - last history entry).
The epsilon-floored Shannon entropy (np.log) is the `entropyFn`
parameter and the square root inside the velocity norm is `sqrtFn`. -/
def compute_lyapunov (entropyFn : List ℚ → ℚ) (sqrtFn : ℚ → ℚ)
    (s : State) (w : LyapunovWeights := {}) : ℚ :=
  let vContr := w.contradiction * s.contradiction_density
  let vEntropy := w.entropy * entropyFn s.posteriors
  let mismatch :=
    if s.coherence_scores.length > 0 then
      ((s.coherence_scores.zipWith (fun c p => |c - p|) s.posteriors).sum)
        / (s.coherence_scores.length : ℚ)
    else 0
  let vCoherence := w.coherence * mismatch
  let velocity :=
    match s.posterior_history.getLast? with
    | some prev => sqrtFn (l2sq s.posteriors prev)
    | none => 0
  vContr + vEntropy + vCoherence + w.velocity * velocity

/-- history[-window:]; Python slicing with -0 keeps the whole list. -/
def lastWindow (l : List (List ℚ)) (w : ℕ) : List (List ℚ) :=
  if w = 0 then l else l.drop (l.length - w)

/-- Squared L2 distances between consecutive entries of a history slice. -/
def consecChangesSq (recent : List (List ℚ)) : List ℚ :=
  recent.zipWith l2sq recent.tail

/-- check_convergence: at least `window` history entries, contradiction
density at most 0.3, every consecutive posterior change within the last
`window` entries at most `tolerance` (the source compares Euclidean
norms against `tolerance`; this model compares squared norms against
`tolerance` squared, equivalent for the nonnegative tolerances used),
and the top posterior at least 0.5. -/
def check_convergence (s : State) (window : ℕ := 3) (tolerance : ℚ := 1/100) :
    Bool :=
  if s.posterior_history.length < window then false
  else if s.contradiction_density > 3/10 then false
  else if listMax (consecChangesSq (lastWindow s.posterior_history window))
      > tolerance ^ 2 then false
  else if listMax s.posteriors < 1/2 then false
  else true

/-! ### Collapse governor (src/nepsis/control/collapse.py) -/

/-- _top: None with no hypotheses or an empty posterior vector, otherwise
the argmax hypothesis (by position) and its posterior. -/
def topOf (s : State) : Option Hypothesis × ℚ :=
  if s.hypotheses.isEmpty || s.posteriors.isEmpty then (none, 0)
  else
    let topIdx := argmaxFirst s.posteriors
    (s.hypotheses[topIdx]?, vget s.posteriors topIdx)

/-- Insertion step for the descending argsort: i goes before j when its
posterior is larger, or equal with a larger position. -/
def insertDesc (p : List ℚ) (i : ℕ) : List ℕ → List ℕ
  | [] => [i]
  | j :: rest =>
    if vget p i > vget p j ∨ (vget p i = vget p j ∧ j < i) then i :: j :: rest
    else j :: insertDesc p i rest

/-- np.argsort(posteriors)[::-1]: hypothesis positions sorted by posterior
descending. Equal posteriors are ordered by descending position,
matching a reversed stable ascending sort; numpy's default sort is not
stability-guaranteed on ties, and no theorem below depends on the tie
order. -/
def argsortDesc (p : List ℚ) : List ℕ :=
  (List.range p.length).foldr (insertDesc p) []

/-- The scan loop of _hickam_cluster_ok over hypothesis positions sorted
by posterior descending: a zero-posterior candidate stops the scan; a
candidate compatible with every current member (pairwise exclusivity at
most HICKAM_MAX_PAIR_XI) is appended and its mass accumulated; right
after each candidate the scan succeeds when the accumulated mass is at
least HICKAM_MASS_THRESH and the cluster holds at least two members. -/
def hickamScan (p : List ℚ) (Xi : List (List ℚ)) :
    List ℕ → List ℕ → ℚ → Bool × List ℕ × ℚ
  | [], cluster, mass => (false, cluster, mass)
  | i :: rest, cluster, mass =>
    if vget p i = 0 then (false, cluster, mass)
    else
      let compatible := cluster.all fun c => !(mget Xi i c > HICKAM_MAX_PAIR_XI)
      let cluster' := if compatible then cluster ++ [i] else cluster
      let mass' := if compatible then mass + vget p i else mass
      if mass' ≥ HICKAM_MASS_THRESH ∧ cluster'.length ≥ 2 then
        (true, cluster', mass')
      else hickamScan p Xi rest cluster' mass'

/-- _hickam_cluster_ok: sync the exclusivity, fail on fewer than two
hypotheses, then run the greedy scan. The returned cluster holds
hypothesis positions (the source returns the hypothesis objects at
these positions); the State carries any exclusivity the sync created. -/
def _hickam_cluster_ok (s : State) : State × Bool × List ℕ × ℚ :=
  let s := ensure_exclusivity s
  if s.hypotheses.length < 2 then (s, false, [], 0)
  else
    let Xi := (s.exclusivity.getD ⟨[], [], 0⟩).matrix
    (s, hickamScan s.posteriors Xi (argsortDesc s.posteriors) [] 0)

/-- Python `x or default` on an optional float threshold: None and 0.0 are
both falsy and fall back to the config constant. -/
def pyOrDefault (o : Option ℚ) (dflt : ℚ) : ℚ :=
  match o with
  | some t => if t = 0 then dflt else t
  | none => dflt

/-- The Hickam/Occam part of decide_collapse (everything after the
ZeroBack guard): in HICKAM mode a valid cluster wins; otherwise the top
hypothesis is selected when its posterior reaches the Occam threshold;
otherwise no collapse (mode unchanged, empty selection). -/
def decideCollapseBranch (s : State) (occam_threshold : Option ℚ) :
    State × CollapseMode × List ℕ :=
  let (s1, hickamHit) :=
    if s.collapse_mode = .hickam then
      let (s', ok, cluster, _) := _hickam_cluster_ok s
      (s', if ok then some cluster else none)
    else (s, none)
  match hickamHit with
  | some cluster => (s1, .hickam, cluster)
  | none =>
    match topOf s1 with
    | (some _, w) =>
      if w ≥ pyOrDefault occam_threshold COLLAPSE_MIN_TOP then
        (s1, .occam, [argmaxFirst s1.posteriors])
      else (s1, s1.collapse_mode, [])
    | (none, _) => (s1, s1.collapse_mode, [])

/-- decide_collapse: ZEROBACK with empty selection when the contradiction
density exceeds the threshold (the override, COLLAPSE_MAX_CONTRA when
the override is absent or 0.0), else the Hickam/Occam branch. The
`hickam_threshold` parameter is accepted and unused, as in the source. -/
def decide_collapse (s : State) (occam_threshold : Option ℚ := none)
    (hickam_threshold : Option ℚ := none) (zeroback_threshold : Option ℚ := none) :
    State × CollapseMode × List ℕ :=
  let _ := hickam_threshold
  if s.contradiction_density > pyOrDefault zeroback_threshold COLLAPSE_MAX_CONTRA then
    (s, .zeroback, [])
  else decideCollapseBranch s occam_threshold

/-- should_collapse: false in ZEROBACK mode or with no top hypothesis;
Occam needs top posterior, contradiction and ruin gates; Hickam needs a
valid cluster and the ruin gate. -/
def should_collapse (s : State) : Bool :=
  match topOf s with
  | (none, _) => false
  | (some _, w) =>
    match s.collapse_mode with
    | .zeroback => false
    | .occam =>
      decide (w ≥ COLLAPSE_MIN_TOP)
        && decide (s.contradiction_density ≤ COLLAPSE_MAX_CONTRA)
        && decide (s.ruin_prob ≤ COLLAPSE_MAX_RUIN)
    | .hickam =>
      let (_, ok, _, _) := _hickam_cluster_ok s
      ok && decide (s.ruin_prob ≤ COLLAPSE_MAX_RUIN)

/-- apply_collapse over hypothesis positions: ZEROBACK rebuilds a fresh
State from the hypothesis list keeping the step counter; OCCAM writes a
one-hot posterior on the selection; HICKAM keeps only the selection and
renormalizes when its mass is positive. -/
def apply_collapse (s : State) (mode : CollapseMode) (selected : List ℕ) : State :=
  match mode with
  | .zeroback =>
    { State.from_hypotheses s.hypotheses s.interpretant_dim with
      step_num := s.step_num
      collapse_mode := .zeroback }
  | .occam =>
    let newPost := (List.range s.posteriors.length).map fun i =>
      if i ∈ selected then 1 else 0
    { s with posteriors := newPost, collapse_mode := .occam }
  | .hickam =>
    let kept := (List.range s.posteriors.length).map fun i =>
      if i ∈ selected then vget s.posteriors i else 0
    let newPost := if kept.sum > 0 then kept.map (· / kept.sum) else kept
    { s with posteriors := newPost, collapse_mode := .hickam }

/-! ### Kernel orchestrator (src/nepsis/core/kernel.py) -/

/-- One reasoning step: a red-preempting signal only marks the state
red-preempted and escalates ruin (audit logging is not modelled);
otherwise the blue pipeline runs, the Lyapunov value and the
convergence flag are recomputed, and ruin is updated. -/
def step (softmaxFn : List ℚ → ℚ → List ℚ) (hashFn : String → ℕ)
    (entropyFn : List ℚ → ℚ) (sqrtFn : ℚ → ℚ)
    (s : State) (sig : Signal) (lw : LyapunovWeights := {})
    (ruin_prob : ℚ := 0) : State × ℚ :=
  if check_red_preempt sig then
    let s' := { s with red_preempted := true }
    (s', compute_ruin_probability s' ruin_prob (some sig))
  else
    let s1 := process_blue_channel softmaxFn hashFn s sig
    let s2 := { s1 with
      lyapunov_value := compute_lyapunov entropyFn sqrtFn s1 lw
      lyapunov_stable := check_convergence s1 }
    (s2, compute_ruin_probability s2 ruin_prob (some sig))

/-- The signal loop of `reason`: stop before a signal once max_steps
signals were consumed, and stop after a step that reports Lyapunov
stability when auto_collapse is on. -/
def reasonLoop (softmaxFn : List ℚ → ℚ → List ℚ) (hashFn : String → ℕ)
    (entropyFn : List ℚ → ℚ) (sqrtFn : ℚ → ℚ)
    (maxSteps : ℕ) (autoCollapse : Bool) (lw : LyapunovWeights) :
    List Signal → ℕ → State → ℚ → State × ℚ
  | [], _, s, r => (s, r)
  | sig :: rest, i, s, r =>
    if i ≥ maxSteps then (s, r)
    else
      let (s', r') := step softmaxFn hashFn entropyFn sqrtFn s sig lw r
      if autoCollapse && s'.lyapunov_stable then (s', r')
      else reasonLoop softmaxFn hashFn entropyFn sqrtFn maxSteps autoCollapse lw
        rest (i + 1) s' r'

/-- Final output bundle of the reasoning process. The top hypothesis is
an Option (the source indexes into the hypothesis list and raises on an
empty one). -/
structure ReasoningResult where
  state : State
  top_hypothesis : Option Hypothesis
  top_posterior : ℚ
  contradiction_density : ℚ
  converged : Bool
  red_preempted : Bool
  steps : ℕ

/-- reason: initialize the State from the hypotheses, drive `step` across
the signals (early exit on convergence when auto_collapse is on, or on
max_steps), then with auto_collapse on decide a final collapse mode and
store it in the state, and build the result bundle. apply_collapse is
not called. -/
def reason (softmaxFn : List ℚ → ℚ → List ℚ) (hashFn : String → ℕ)
    (entropyFn : List ℚ → ℚ) (sqrtFn : ℚ → ℚ)
    (signals : List Signal) (hypotheses : List Hypothesis)
    (maxSteps : ℕ := 100) (autoCollapse : Bool := true)
    (lw : LyapunovWeights := {}) : ReasoningResult :=
  let s0 := State.from_hypotheses hypotheses
  let sF := (reasonLoop softmaxFn hashFn entropyFn sqrtFn maxSteps
    autoCollapse lw signals 0 s0 0).1
  let sDone :=
    if autoCollapse then
      let dres := decide_collapse sF
      { dres.1 with collapse_mode := dres.2.1 }
    else sF
  -- state.get_top_hypothesis(1)[0]: head of the descending argsort
  let topIdx := (argsortDesc sDone.posteriors).headD 0
  { state := sDone
    top_hypothesis := sDone.hypotheses[topIdx]?
    top_posterior := listMax sDone.posteriors
    contradiction_density := sDone.contradiction_density
    converged := sDone.lyapunov_stable
    red_preempted := sDone.red_preempted
    steps := sDone.step_num }


/-! ### Spec-side definitions and concrete example inputs

`convergenceSpecPairwise` follows the words of the specification (an
all-pairs stability test) for comparison against the code-derived
`check_convergence`; everything else below is concrete data used by the
theorems. -/

/-- The convergence test as the specification words it: at least `window`
history entries, contradiction density at most 0.3, the maximum
pairwise L2 distance between ANY two of the last `window` entries at
most `tolerance` (squared comparison, as above), and top posterior at
least 0.5. -/
def convergenceSpecPairwise (s : State) (window : ℕ := 3)
    (tolerance : ℚ := 1/100) : Bool :=
  let recent := lastWindow s.posterior_history window
  decide (window ≤ s.posterior_history.length)
    && decide (s.contradiction_density ≤ 3/10)
    && ((List.range recent.length).all fun i => (List.range recent.length).all fun j =>
        decide (l2sq (recent.getD i []) (recent.getD j []) ≤ tolerance ^ 2))
    && decide (1/2 ≤ listMax s.posteriors)

/-- A hypothesis with trivial expectations. -/
def hypo (i : String) (pr : ℚ) : Hypothesis := ⟨i, i, pr, []⟩

/-- Two-hypothesis state with contradiction density 0.5 (between the
Occam max-contradiction constant 0.25 and the ZeroBack constant 0.70),
Occam mode, a dominant top posterior. -/
def stateC2 : State :=
  { hypotheses := [hypo "a" (1/2), hypo "b" (1/2)]
    priors := [9/10, 1/10]
    posteriors := [9/10, 1/10]
    interpretant_states := []
    exclusivity := some ⟨["a", "b"], [[0, 1/2], [1/2, 0]], 0⟩
    contradiction_density := 1/2 }

/-- Two-hypothesis state whose last three history entries drift by
0.006 per entry: each consecutive L2 change is about 0.0085 (within the
0.01 tolerance) while the first-to-last distance is about 0.017. -/
def stateC3 : State :=
  { hypotheses := [hypo "a" (1/2), hypo "b" (1/2)]
    priors := [153/250, 97/250]
    posteriors := [153/250, 97/250]
    interpretant_states := []
    contradiction_density := 0
    posterior_history := [[3/5, 2/5], [303/500, 197/500], [153/250, 97/250]] }

/-- Symmetric two-hypothesis exclusivity with mutual exclusivity 0.9. -/
def exC6 : Exclusivity := ⟨["a", "b"], [[0, 9/10], [9/10, 0]], 0⟩

/-- The specification scenario for contradiction density: two hypotheses,
mutual exclusivity 0.9 (symmetric), posteriors [0.7, 0.6]. -/
def stateC6 : State :=
  { hypotheses := [hypo "a" (1/2), hypo "b" (1/2)]
    priors := [7/10, 3/5]
    posteriors := [7/10, 3/5]
    interpretant_states := []
    exclusivity := some exC6 }

/-- An Exclusivity whose matrix is asymmetric by 1e-6 — small enough to
pass the np.allclose validation of the constructor — with a nonzero
default. -/
def exC8 : Exclusivity := ⟨["a", "b"], [[0, 1/2], [1/2 + 1/1000000, 0]], 3/10⟩

/-- Four-hypothesis exclusivity: the first three pairwise compatible
(0.1), each individually exclusive (0.9) with the fourth. -/
def exC5 : Exclusivity :=
  ⟨["h1", "h2", "h3", "h4"],
    [[0, 1/10, 1/10, 9/10],
     [1/10, 0, 1/10, 9/10],
     [1/10, 1/10, 0, 9/10],
     [9/10, 9/10, 9/10, 0]], 0⟩

/-- The specification scenario for Hickam clustering: four hypotheses
with the exC5 exclusivity, posteriors [0.35, 0.30, 0.25, 0.10], Hickam
mode. -/
def stateC5 : State :=
  { hypotheses := [hypo "h1" (3/10), hypo "h2" (3/10), hypo "h3" (3/10), hypo "h4" (1/10)]
    priors := [7/20, 3/10, 1/4, 1/10]
    posteriors := [7/20, 3/10, 1/4, 1/10]
    interpretant_states := []
    collapse_mode := .hickam
    exclusivity := some exC5 }

/-- The specification scenario for red preemption: red_threshold 30,
value 50. -/
def sigC9 : Signal := mkSignal (.inr "vital") "sbp" 50 none (some 30)

/-- A plain state used to instantiate universally quantified theorems. -/
def stateW : State :=
  { hypotheses := [hypo "a" (1/2), hypo "b" (1/2)]
    priors := [1/2, 1/2]
    posteriors := [1/2, 1/2]
    interpretant_states := [] }

/-- Trivial stand-ins for the transcendental function parameters, used
only to instantiate universally quantified theorems at concrete inputs. -/
def idSoftmax : List ℚ → ℚ → List ℚ := fun l _ => l

def zeroHash : String → ℕ := fun _ => 0

def zeroEntropy : List ℚ → ℚ := fun _ => 0

def zeroSqrt : ℚ → ℚ := fun _ => 0


/-! ### Helper lemmas -/

/-- A State whose stored exclusivity matches its hypothesis id set is
left unchanged by the sync routine. -/
theorem ensure_exclusivity_synced (s : State) (E : Exclusivity)
    (hE : s.exclusivity = some E)
    (hsync : listSetEq E.ids (s.hypotheses.map (·.id)) = true) :
    ensure_exclusivity s = s := by
  unfold ensure_exclusivity
  rw [hE]
  simp [hsync]

/-- The sync routine never changes the collapse mode. -/
theorem ensure_exclusivity_collapse_mode (s : State) :
    (ensure_exclusivity s).collapse_mode = s.collapse_mode := by
  unfold ensure_exclusivity
  rcases s.exclusivity with _ | E
  · rfl
  · dsimp only
    split <;> rfl

/-- The sync routine never changes the posterior vector. -/
theorem ensure_exclusivity_posteriors (s : State) :
    (ensure_exclusivity s).posteriors = s.posteriors := by
  unfold ensure_exclusivity
  rcases s.exclusivity with _ | E
  · rfl
  · dsimp only
    split <;> rfl

/-- An out-of-range vector read returns 0. -/
theorem vget_eq_zero_of_ge (p : List ℚ) (i : ℕ) (h : p.length ≤ i) :
    vget p i = 0 := by
  unfold vget
  exact List.getD_eq_default p 0 h

/-- squareOf gives the row count and each row length. -/
theorem squareOf_spec (M : List (List ℚ)) (n : ℕ) (h : squareOf M n = true) :
    M.length = n ∧ ∀ row ∈ M, row.length = n := by
  unfold squareOf at h
  rw [Bool.and_eq_true, beq_iff_eq, List.all_eq_true] at h
  exact ⟨h.1, fun row hr => by simpa using h.2 row hr⟩

/-- An out-of-range read of a square matrix returns 0. -/
theorem mget_eq_zero_of_square (M : List (List ℚ)) (n : ℕ)
    (hsq : squareOf M n = true) (i j : ℕ) (h : n ≤ i ∨ n ≤ j) :
    mget M i j = 0 := by
  obtain ⟨hlen, hrows⟩ := squareOf_spec M n hsq
  rcases h with hi | hj
  · unfold mget
    rw [List.getD_eq_default _ _ (by omega)]
    exact vget_eq_zero_of_ge [] j (by simp)
  · by_cases hi : n ≤ i
    · unfold mget
      rw [List.getD_eq_default _ _ (by omega)]
      exact vget_eq_zero_of_ge [] j (by simp)
    · push_neg at hi
      unfold mget
      have hmem : M.getD i [] ∈ M := by
        have : i < M.length := by omega
        rw [List.getD_eq_getElem _ _ this]
        exact M.getElem_mem this
      exact vget_eq_zero_of_ge _ j (by rw [hrows _ hmem]; omega)

/-- Symmetry of a square matrix on in-range entries extends to all
entries (out-of-range reads are 0 on both sides). -/
theorem mget_symm_of_bounded (M : List (List ℚ)) (n : ℕ)
    (hsq : squareOf M n = true)
    (hb : ∀ i < n, ∀ j < n, mget M i j = mget M j i) :
    ∀ i j, mget M i j = mget M j i := by
  intro i j
  by_cases hi : i < n
  · by_cases hj : j < n
    · exact hb i hi j hj
    · rw [mget_eq_zero_of_square M n hsq i j (Or.inr (by omega)),
        mget_eq_zero_of_square M n hsq j i (Or.inl (by omega))]
  · rw [mget_eq_zero_of_square M n hsq i j (Or.inl (by omega)),
      mget_eq_zero_of_square M n hsq j i (Or.inr (by omega))]

/-- A zero diagonal on in-range entries extends to all entries. -/
theorem mget_diag_zero_of_bounded (M : List (List ℚ)) (n : ℕ)
    (hsq : squareOf M n = true) (hb : ∀ i < n, mget M i i = 0) :
    ∀ i, mget M i i = 0 := by
  intro i
  by_cases hi : i < n
  · exact hb i hi
  · exact mget_eq_zero_of_square M n hsq i i (Or.inl (by omega))

/-! ### Claim theorems -/

/-- C1: the claim says check_red_preempt is true when the signal type is
the reserved red category, including a Signal constructed with the
string type "red". On the code, `__post_init__` converts the string
"red" to the SignalType.RED enum member, and the `signal.type == "red"`
comparison of an enum member against a string is always false in
Python, so such a signal (with no red threshold) does NOT preempt. -/
theorem c1_red_typed_signal_does_not_preempt :
    check_red_preempt (mkSignal (Sum.inr "red") "alarm" 5) = false ∧
    (mkSignal (Sum.inr "red") "alarm" 5).type = Sum.inl SignalType.red := by
  exact ⟨rfl, rfl⟩

/-- C2 counterexample: a state with contradiction density 0.5 — at most
the ZeroBack constant 0.70 that the claim names — still collapses to
ZEROBACK under decide_collapse with no overrides, because the code
defaults the guard to COLLAPSE_MAX_CONTRA = 0.25. -/
theorem c2_zeroback_fires_below_zero_back_contra :
    decide_collapse stateC2 = (stateC2, CollapseMode.zeroback, []) ∧
    stateC2.contradiction_density ≤ ZERO_BACK_CONTRA := by
  constructor
  · norm_num [decide_collapse, pyOrDefault, COLLAPSE_MAX_CONTRA, stateC2]
  · norm_num [stateC2, ZERO_BACK_CONTRA]

/-- C3 counterexample: a state whose last three history entries drift by
0.006 each (consecutive L2 changes within the 0.01 tolerance, the
first-to-last pairwise distance above it) is reported converged by
check_convergence, refuting the all-pairs reading of the claim. -/
theorem c3_convergence_is_not_pairwise :
    check_convergence stateC3 = true ∧ convergenceSpecPairwise stateC3 = false := by
  constructor
  · norm_num [check_convergence, stateC3, lastWindow, consecChangesSq, l2sq,
      listMax, List.foldl, max_def]
  · norm_num [convergenceSpecPairwise, stateC3, lastWindow, l2sq, listMax,
      List.range_succ, List.foldl, max_def]

/-- C7 counterexample: the matrix [[0, 2], [2, 0]] is square, symmetric
and zero-diagonal, so Exclusivity construction succeeds although the
off-diagonal entries are 2, outside [0, 1]: no range check exists. -/
theorem c7_construction_accepts_out_of_range_entries :
    (Exclusivity.mk? ["a", "b"] [[0, 2], [2, 0]]).isSome = true ∧
    mget [[0, 2], [2, 0]] 0 1 = 2 ∧ ¬ ((2 : ℚ) ≤ 1) := by
  refine ⟨?_, by norm_num [mget, vget], by norm_num⟩
  norm_num [Exclusivity.mk?, exclusivityValid, squareOf, allcloseSym,
    allcloseDiagZero, allcloseScalar, mget, vget, List.range_succ]

/-- C8 counterexample: a matrix asymmetric by 1e-6 passes the
np.allclose-based constructor validation, and on the resulting instance
get(a,b) differs from get(b,a); moreover a diagonal lookup on an
unknown id returns the configured default 0.3, not 0. -/
theorem c8_get_not_exactly_symmetric :
    Exclusivity.mk? ["a", "b"] [[0, 1/2], [1/2 + 1/1000000, 0]] (3/10) = some exC8 ∧
    exC8.get "a" "b" ≠ exC8.get "b" "a" ∧
    exC8.get "z" "z" ≠ 0 := by
  refine ⟨?_, ?_, ?_⟩
  · norm_num [Exclusivity.mk?, exclusivityValid, squareOf, allcloseSym,
      allcloseDiagZero, allcloseScalar, mget, vget, List.range_succ, exC8,
      abs_of_nonneg]
  · have ha : dictIndex ["a", "b"] "a" = some 0 := by rfl
    have hb : dictIndex ["a", "b"] "b" = some 1 := by rfl
    norm_num [Exclusivity.get, exC8, ha, hb, mget, vget]
  · have hz : dictIndex ["a", "b"] "z" = none := by rfl
    norm_num [Exclusivity.get, exC8, hz]


/-- C6: compute_contradiction_density returns 0 with fewer than two
hypotheses, and otherwise (for a synced exclusivity E)
clamp(0.5 * p^T Xi p); in the specification scenario — two hypotheses,
symmetric exclusivity 0.9, posteriors [0.7, 0.6] — the result is
0.378 = 189/500. -/
theorem c6_contradiction_density_formula :
    (∀ (s : State) (E : Exclusivity),
      (s.hypotheses.length < 2 → (compute_contradiction_density s).2 = 0) ∧
      (s.exclusivity = some E →
        listSetEq E.ids (s.hypotheses.map (·.id)) = true →
        2 ≤ s.hypotheses.length →
        (compute_contradiction_density s).2
          = clamp01 ((1/2) * quadForm s.posteriors E.matrix))) ∧
    (compute_contradiction_density stateC6).2 = 189/500 := by
  have main : ∀ (s : State) (E : Exclusivity),
      (s.hypotheses.length < 2 → (compute_contradiction_density s).2 = 0) ∧
      (s.exclusivity = some E →
        listSetEq E.ids (s.hypotheses.map (·.id)) = true →
        2 ≤ s.hypotheses.length →
        (compute_contradiction_density s).2
          = clamp01 ((1/2) * quadForm s.posteriors E.matrix)) := by
    intro s E
    constructor
    · intro hlt
      unfold compute_contradiction_density
      rw [if_pos hlt]
    · intro hE hsync hlen
      have hs := ensure_exclusivity_synced s E hE hsync
      unfold compute_contradiction_density
      rw [if_neg (by omega), hs]
      simp only [hE, Option.getD_some]
  refine ⟨main, ?_⟩
  have h := (main stateC6 exC6).2 rfl (by rfl) (by norm_num [stateC6])
  rw [h]
  norm_num [stateC6, exC6, quadForm, List.range_succ, mget, vget, clamp01,
    min_def, max_def]

/-- C6 witness: the general formula applied to the concrete scenario
state. -/
theorem c6_contradiction_density_formula_witness :
    (compute_contradiction_density stateC6).2
      = clamp01 ((1/2) * quadForm stateC6.posteriors exC6.matrix) :=
  (c6_contradiction_density_formula.1 stateC6 exC6).2 rfl (by rfl)
    (by norm_num [stateC6])


/-- The greedy cluster check returns the synced state as its State
component in every branch. -/
theorem hickam_cluster_ok_fst (s : State) :
    (_hickam_cluster_ok s).1 = ensure_exclusivity s := by
  unfold _hickam_cluster_ok
  dsimp only
  split
  · rfl
  · rfl

/-- C3 amended: check_convergence at window 3, tolerance 0.01 holds iff
the history has at least 3 entries, the contradiction density is at
most 0.3, every CONSECUTIVE posterior change among the last 3 entries
is within the tolerance (the code never compares non-adjacent entries),
and the top posterior is at least 0.5. -/
theorem c3_convergence_conjunctive_consecutive :
    ∀ s : State,
      check_convergence s 3 (1/100) = true ↔
        (3 ≤ s.posterior_history.length ∧
         s.contradiction_density ≤ 3/10 ∧
         listMax (consecChangesSq (lastWindow s.posterior_history 3)) ≤ (1/100)^2 ∧
         1/2 ≤ listMax s.posteriors) := by
  intro s
  unfold check_convergence
  constructor
  · intro h
    split_ifs at h with h1 h2 h3 h4
    refine ⟨?_, ?_, ?_, ?_⟩ <;> first | omega | linarith
  · rintro ⟨hl, hd, hc, ht⟩
    rw [if_neg (by omega), if_neg (by linarith), if_neg (by linarith),
      if_neg (by linarith)]

/-- The Hickam/Occam branch of decide_collapse keeps ZEROBACK out of the
decision unless the state already carried it as its current mode. -/
theorem decideCollapseBranch_mode_ne_zeroback (s : State) (occ : Option ℚ)
    (hmode : s.collapse_mode ≠ CollapseMode.zeroback) :
    (decideCollapseBranch s occ).2.1 ≠ CollapseMode.zeroback := by
  rcases hX : _hickam_cluster_ok s with ⟨s1, ok, cluster, mass⟩
  have hmode1 : s1.collapse_mode = s.collapse_mode := by
    have h := hickam_cluster_ok_fst s
    rw [hX] at h
    simp only at h
    rw [h, ensure_exclusivity_collapse_mode]
  unfold decideCollapseBranch
  by_cases hh : s.collapse_mode = CollapseMode.hickam
  · rw [if_pos hh, hX]
    try dsimp only
    cases ok
    · try dsimp only
      rcases topOf s1 with ⟨_ | t, w⟩
      · try dsimp only
        rw [hmode1]
        exact hmode
      · try dsimp only
        by_cases hw : w ≥ pyOrDefault occ COLLAPSE_MIN_TOP
        · rw [if_pos hw]
          simp
        · rw [if_neg hw]
          rw [hmode1]
          exact hmode
    · try dsimp only
      simp
  · rw [if_neg hh]
    try dsimp only
    rcases topOf s with ⟨_ | t, w⟩
    · try dsimp only
      exact hmode
    · try dsimp only
      by_cases hw : w ≥ pyOrDefault occ COLLAPSE_MIN_TOP
      · rw [if_pos hw]
        simp
      · rw [if_neg hw]
        exact hmode

/-- C2 amended: with no overrides, decide_collapse returns ZEROBACK with
an empty selection as soon as the contradiction density exceeds
COLLAPSE_MAX_CONTRA = 0.25 — the Occam max-contradiction constant, not
the unused ZERO_BACK_CONTRA = 0.70 — and at or below 0.25 the decision
comes from the Hickam/Occam branch, which never newly selects
ZEROBACK. -/
theorem c2_zeroback_guard_uses_collapse_max_contra :
    ∀ s : State,
      (s.contradiction_density > COLLAPSE_MAX_CONTRA →
        decide_collapse s = (s, CollapseMode.zeroback, [])) ∧
      (s.contradiction_density ≤ COLLAPSE_MAX_CONTRA →
        decide_collapse s = decideCollapseBranch s none) ∧
      (s.contradiction_density ≤ COLLAPSE_MAX_CONTRA →
        s.collapse_mode ≠ CollapseMode.zeroback →
        (decide_collapse s).2.1 ≠ CollapseMode.zeroback) := by
  intro s
  have hguard : pyOrDefault none COLLAPSE_MAX_CONTRA = COLLAPSE_MAX_CONTRA := rfl
  refine ⟨?_, ?_, ?_⟩
  · intro h
    unfold decide_collapse
    rw [hguard, if_pos h]
  · intro h
    unfold decide_collapse
    rw [hguard, if_neg (by linarith)]
  · intro h hmode
    unfold decide_collapse
    rw [hguard, if_neg (by linarith)]
    exact decideCollapseBranch_mode_ne_zeroback s none hmode

/-- C2 witness: the amended characterization applied at a concrete state
with contradiction density 0 (at most 0.25). -/
theorem c2_zeroback_guard_witness :
    decide_collapse stateW = decideCollapseBranch stateW none :=
  (c2_zeroback_guard_uses_collapse_max_contra stateW).2.1
    (by norm_num [stateW, COLLAPSE_MAX_CONTRA])


/-- The ruin update never decreases a ruin value in [0, 1] and never
exceeds 1. -/
theorem compute_ruin_probability_mono (s : State) (r : ℚ) (sig : Option Signal)
    (h0 : 0 ≤ r) (h1 : r ≤ 1) :
    r ≤ compute_ruin_probability s r sig ∧ compute_ruin_probability s r sig ≤ 1 := by
  rcases sig with _ | g
  · unfold compute_ruin_probability
    dsimp only
    split_ifs with hd
    · have hpos : 0 ≤ (s.contradiction_density - 1/2) * (1/20) :=
        mul_nonneg (by linarith) (by norm_num)
      exact ⟨le_min h1 (by linarith), min_le_left _ _⟩
    · exact ⟨le_refl r, h1⟩
  · unfold compute_ruin_probability
    dsimp only
    split_ifs with hd hred hred
    · have hpos : 0 ≤ (s.contradiction_density - 1/2) * (1/20) :=
        mul_nonneg (by linarith) (by norm_num)
      have h2 : r ≤ 1 ⊓ (r + 1/10) := le_min h1 (by linarith)
      exact ⟨le_min h1 (by linarith), min_le_left _ _⟩
    · have hpos : 0 ≤ (s.contradiction_density - 1/2) * (1/20) :=
        mul_nonneg (by linarith) (by norm_num)
      exact ⟨le_min h1 (by linarith), min_le_left _ _⟩
    · exact ⟨le_min h1 (by linarith), min_le_left _ _⟩
    · exact ⟨le_refl r, h1⟩

/-- C4: within any step the returned ruin is at least the ruin passed in
and at most 1, for every state, signal and function parameters; and the
same monotone bound holds across any signal sequence driven by the
reason loop. -/
theorem c4_ruin_monotone_per_step_and_sequence :
    ∀ (f : List ℚ → ℚ → List ℚ) (g : String → ℕ) (e : List ℚ → ℚ) (q : ℚ → ℚ)
      (lw : LyapunovWeights),
      (∀ (s : State) (sig : Signal) (r : ℚ), 0 ≤ r → r ≤ 1 →
        r ≤ (step f g e q s sig lw r).2 ∧ (step f g e q s sig lw r).2 ≤ 1) ∧
      (∀ (ms : ℕ) (ac : Bool) (sigs : List Signal) (i : ℕ) (s : State) (r : ℚ),
        0 ≤ r → r ≤ 1 →
        r ≤ (reasonLoop f g e q ms ac lw sigs i s r).2 ∧
          (reasonLoop f g e q ms ac lw sigs i s r).2 ≤ 1) := by
  intro f g e q lw
  have hstep : ∀ (s : State) (sig : Signal) (r : ℚ), 0 ≤ r → r ≤ 1 →
      r ≤ (step f g e q s sig lw r).2 ∧ (step f g e q s sig lw r).2 ≤ 1 := by
    intro s sig r h0 h1
    unfold step
    split_ifs with hred
    · exact compute_ruin_probability_mono _ r (some sig) h0 h1
    · exact compute_ruin_probability_mono _ r (some sig) h0 h1
  refine ⟨hstep, ?_⟩
  intro ms ac sigs
  induction sigs with
  | nil =>
    intro i s r h0 h1
    exact ⟨le_refl r, h1⟩
  | cons sig rest ih =>
    intro i s r h0 h1
    have h := hstep s sig r h0 h1
    rcases hse : step f g e q s sig lw r with ⟨s2, r2⟩
    rw [hse] at h
    simp only at h
    unfold reasonLoop
    rw [hse]
    by_cases hmax : i ≥ ms
    · rw [if_pos hmax]
      exact ⟨le_refl r, h1⟩
    · rw [if_neg hmax]
      dsimp only
      by_cases hstab : (ac && s2.lyapunov_stable) = true
      · rw [if_pos hstab]
        exact h
      · rw [if_neg hstab]
        have h2 := ih (i + 1) s2 r2 (le_trans h0 h.1) h.2
        exact ⟨le_trans h.1 h2.1, h2.2⟩

/-- C4 witness: the per-step bound applied to a concrete state, a
red-preempting signal and initial ruin 0. -/
theorem c4_ruin_monotone_witness :
    (0 : ℚ) ≤ (step idSoftmax zeroHash zeroEntropy zeroSqrt stateW sigC9 {} 0).2 ∧
    (step idSoftmax zeroHash zeroEntropy zeroSqrt stateW sigC9 {} 0).2 ≤ 1 :=
  (c4_ruin_monotone_per_step_and_sequence idSoftmax zeroHash zeroEntropy
    zeroSqrt {}).1 stateW sigC9 0 (by norm_num) (by norm_num)

/-- C9: a red-preempting signal only marks the state red-preempted; the
posterior vector, priors, likelihoods, coherence scores, interpretant
vector and posterior history all come through the step unchanged. -/
theorem c9_red_preempt_step_frame :
    ∀ (f : List ℚ → ℚ → List ℚ) (g : String → ℕ) (e : List ℚ → ℚ) (q : ℚ → ℚ)
      (lw : LyapunovWeights) (s : State) (sig : Signal) (r : ℚ),
      check_red_preempt sig = true →
      (step f g e q s sig lw r).1.red_preempted = true ∧
      (step f g e q s sig lw r).1.posteriors = s.posteriors ∧
      (step f g e q s sig lw r).1.priors = s.priors ∧
      (step f g e q s sig lw r).1.likelihoods = s.likelihoods ∧
      (step f g e q s sig lw r).1.coherence_scores = s.coherence_scores ∧
      (step f g e q s sig lw r).1.interpretant_states = s.interpretant_states ∧
      (step f g e q s sig lw r).1.posterior_history = s.posterior_history := by
  intro f g e q lw s sig r hred
  unfold step
  rw [if_pos hred]
  exact ⟨rfl, rfl, rfl, rfl, rfl, rfl, rfl⟩

/-- C9 witness: the frame property at the specification scenario signal
(red_threshold 30, value 50). -/
theorem c9_red_preempt_step_frame_witness :
    (step idSoftmax zeroHash zeroEntropy zeroSqrt stateW sigC9 {} 0).1.red_preempted
        = true ∧
    (step idSoftmax zeroHash zeroEntropy zeroSqrt stateW sigC9 {} 0).1.posteriors
        = stateW.posteriors := by
  have h := c9_red_preempt_step_frame idSoftmax zeroHash zeroEntropy zeroSqrt {}
    stateW sigC9 0
    (by norm_num [check_red_preempt, sigC9, mkSignal, signalTypeOfString])
  exact ⟨h.1, h.2.1⟩


/-- Recomputing the contradiction density never changes the collapse
mode. -/
theorem ccd_fst_collapse_mode (s : State) :
    (compute_contradiction_density s).1.collapse_mode = s.collapse_mode := by
  unfold compute_contradiction_density
  split_ifs with h
  · rfl
  · dsimp only
    exact ensure_exclusivity_collapse_mode s

/-- The blue channel never changes the collapse mode. -/
theorem blue_collapse_mode (f : List ℚ → ℚ → List ℚ) (g : String → ℕ)
    (s : State) (sig : Signal) :
    (process_blue_channel f g s sig).collapse_mode = s.collapse_mode := by
  unfold process_blue_channel
  dsimp only
  rw [ccd_fst_collapse_mode]

/-- One kernel step never changes the collapse mode. -/
theorem step_fst_collapse_mode (f : List ℚ → ℚ → List ℚ) (g : String → ℕ)
    (e : List ℚ → ℚ) (q : ℚ → ℚ) (lw : LyapunovWeights)
    (s : State) (sig : Signal) (r : ℚ) :
    (step f g e q s sig lw r).1.collapse_mode = s.collapse_mode := by
  unfold step
  split_ifs with hred
  · rfl
  · dsimp only
    exact blue_collapse_mode f g s sig

/-- The reason loop never changes the collapse mode. -/
theorem reasonLoop_fst_collapse_mode (f : List ℚ → ℚ → List ℚ) (g : String → ℕ)
    (e : List ℚ → ℚ) (q : ℚ → ℚ) (ms : ℕ) (ac : Bool) (lw : LyapunovWeights) :
    ∀ (sigs : List Signal) (i : ℕ) (s : State) (r : ℚ),
      (reasonLoop f g e q ms ac lw sigs i s r).1.collapse_mode = s.collapse_mode := by
  intro sigs
  induction sigs with
  | nil =>
    intro i s r
    rfl
  | cons sig rest ih =>
    intro i s r
    have hmode := step_fst_collapse_mode f g e q lw s sig r
    rcases hse : step f g e q s sig lw r with ⟨s2, r2⟩
    rw [hse] at hmode
    simp only at hmode
    unfold reasonLoop
    rw [hse]
    by_cases hmax : i ≥ ms
    · rw [if_pos hmax]
    · rw [if_neg hmax]
      dsimp only
      by_cases hstab : (ac && s2.lyapunov_stable) = true
      · rw [if_pos hstab]
        exact hmode
      · rw [if_neg hstab]
        rw [ih (i + 1) s2 r2]
        exact hmode

/-- When the current mode is not HICKAM, decide_collapse returns its
input state unchanged. -/
theorem decide_collapse_fst_of_ne_hickam (s : State) (occ hic zb : Option ℚ)
    (h : s.collapse_mode ≠ CollapseMode.hickam) :
    (decide_collapse s occ hic zb).1 = s := by
  unfold decide_collapse
  split_ifs with hd
  · rfl
  · unfold decideCollapseBranch
    rw [if_neg h]
    dsimp only
    rcases topOf s with ⟨_ | t, w⟩
    · rfl
    · dsimp only
      split_ifs with hw
      · rfl
      · rfl

/-- C10: with auto_collapse on, the final collapse decision of `reason`
only writes the decided mode into the state: the returned state is the
post-loop state with its collapse_mode replaced, and in particular its
posterior vector is exactly the post-loop posterior vector
(apply_collapse is never invoked). -/
theorem c10_reason_final_decision_only_sets_mode :
    ∀ (f : List ℚ → ℚ → List ℚ) (g : String → ℕ) (e : List ℚ → ℚ) (q : ℚ → ℚ)
      (sigs : List Signal) (hyps : List Hypothesis) (ms : ℕ) (lw : LyapunovWeights),
      (reason f g e q sigs hyps ms true lw).state =
        { (reasonLoop f g e q ms true lw sigs 0 (State.from_hypotheses hyps) 0).1 with
          collapse_mode :=
            (decide_collapse (reasonLoop f g e q ms true lw sigs 0
              (State.from_hypotheses hyps) 0).1).2.1 } ∧
      (reason f g e q sigs hyps ms true lw).state.posteriors =
        (reasonLoop f g e q ms true lw sigs 0
          (State.from_hypotheses hyps) 0).1.posteriors := by
  intro f g e q sigs hyps ms lw
  have hmode0 : (State.from_hypotheses hyps).collapse_mode = CollapseMode.occam := rfl
  have hmodeF := reasonLoop_fst_collapse_mode f g e q ms true lw sigs 0
    (State.from_hypotheses hyps) 0
  rw [hmode0] at hmodeF
  set sF := (reasonLoop f g e q ms true lw sigs 0 (State.from_hypotheses hyps) 0).1
    with hsF
  have hmodeSF : sF.collapse_mode = CollapseMode.occam := hmodeF
  have hfst := decide_collapse_fst_of_ne_hickam sF none none none
    (by rw [hmodeSF]; exact fun hcontra => CollapseMode.noConfusion hcontra)
  have hmain : (reason f g e q sigs hyps ms true lw).state =
      { sF with collapse_mode := (decide_collapse sF).2.1 } := by
    unfold reason
    dsimp only
    rw [← hsF, hfst]
    rfl
  exact ⟨hmain, by rw [hmain]⟩

/-- Reading a generated vector. -/
theorem vget_range_map (n : ℕ) (f : ℕ → ℚ) (i : ℕ) :
    vget ((List.range n).map f) i = if i < n then f i else 0 := by
  unfold vget
  by_cases hi : i < n
  · rw [if_pos hi, List.getD_eq_getElem _ _ (by simpa using hi), List.getElem_map,
      List.getElem_range]
  · rw [if_neg hi, List.getD_eq_default _ _ (by simpa using hi)]

/-- A row of a generated matrix. -/
theorem mkMat_row (n : ℕ) (f : ℕ → ℕ → ℚ) (i : ℕ) (hi : i < n) :
    (mkMat n f).getD i [] = (List.range n).map (f i) := by
  unfold mkMat
  rw [List.getD_eq_getElem _ _ (by simpa using hi), List.getElem_map, List.getElem_range]

/-- Reading an entry of an n x n generated matrix. -/
theorem mget_mkMat (n : ℕ) (f : ℕ → ℕ → ℚ) (i j : ℕ) :
    mget (mkMat n f) i j = if i < n ∧ j < n then f i j else 0 := by
  unfold mget
  by_cases hi : i < n
  · rw [mkMat_row n f i hi, vget_range_map]
    by_cases hj : j < n
    · rw [if_pos hj, if_pos ⟨hi, hj⟩]
    · rw [if_neg hj, if_neg (by tauto)]
  · have hrow : (mkMat n f).getD i [] = [] :=
      List.getD_eq_default _ _ (by unfold mkMat; simpa using hi)
    rw [hrow, if_neg (by tauto)]
    rfl

/-- clamp01 lands in [0, 1]. -/
theorem clamp01_mem (x : ℚ) : 0 ≤ clamp01 x ∧ clamp01 x ≤ 1 :=
  ⟨le_max_left 0 _, max_le (by norm_num) (min_le_left 1 x)⟩

/-- A fold whose step keeps every matrix entry in [0, 1] keeps every
entry of the final matrix in [0, 1]. -/
theorem foldl_mat_preserve {α : Type} (f : List (List ℚ) → α → List (List ℚ))
    (hf : ∀ M a, (∀ i j, 0 ≤ mget M i j ∧ mget M i j ≤ 1) →
      ∀ i j, 0 ≤ mget (f M a) i j ∧ mget (f M a) i j ≤ 1) :
    ∀ (l : List α) (M : List (List ℚ)),
      (∀ i j, 0 ≤ mget M i j ∧ mget M i j ≤ 1) →
      ∀ i j, 0 ≤ mget (l.foldl f M) i j ∧ mget (l.foldl f M) i j ≤ 1 := by
  intro l
  induction l with
  | nil =>
    intro M h
    exact h
  | cons a t ih =>
    intro M h
    rw [List.foldl_cons]
    exact ih (f M a) (hf M a h)

/-- Applying one pair rule keeps every entry in [0, 1]. -/
theorem applyPairRule_bounds (idx : String → Option ℕ) (M : List (List ℚ))
    (rule : String × String × ℚ)
    (h : ∀ i j, 0 ≤ mget M i j ∧ mget M i j ≤ 1) :
    ∀ i j, 0 ≤ mget (applyPairRule idx M rule) i j ∧
      mget (applyPairRule idx M rule) i j ≤ 1 := by
  intro i j
  unfold applyPairRule
  rcases idx rule.1 with _ | a
  · exact h i j
  · rcases idx rule.2.1 with _ | b
    · exact h i j
    · dsimp only
      rw [mget_mkMat]
      split_ifs with hin hcond
      · exact clamp01_mem _
      · exact h i j
      · norm_num

/-- Applying one group rule keeps every entry in [0, 1]. -/
theorem applyGroupRule_bounds (idx : String → Option ℕ) (M : List (List ℚ))
    (rule : List String × ℚ)
    (h : ∀ i j, 0 ≤ mget M i j ∧ mget M i j ≤ 1) :
    ∀ i j, 0 ≤ mget (applyGroupRule idx M rule) i j ∧
      mget (applyGroupRule idx M rule) i j ≤ 1 := by
  unfold applyGroupRule
  dsimp only
  refine foldl_mat_preserve _ ?_ _ M h
  intro M' ab h' i' j'
  rcases idx ab.1 with _ | a
  · exact h' i' j'
  · rcases idx ab.2 with _ | b
    · exact h' i' j'
    · dsimp only
      rw [mget_mkMat]
      split_ifs with hin hcond
      · constructor
        · exact le_trans (h' a b).1 (le_max_left _ _)
        · exact max_le (h' a b).2 (clamp01_mem _).2
      · exact h' i' j'
      · norm_num

/-- Every matrix built from rules has all entries in [0, 1]. -/
theorem build_exclusivity_entries_bounds (ids : List String)
    (pairs : List (String × String × ℚ)) (groups : List (List String × ℚ))
    (d : ℚ) (i j : ℕ) :
    0 ≤ mget (build_exclusivity_from_rules ids pairs groups d).matrix i j ∧
      mget (build_exclusivity_from_rules ids pairs groups d).matrix i j ≤ 1 := by
  have h0 : ∀ i j, 0 ≤ mget (mkMat ids.length fun _ _ => (0:ℚ)) i j ∧
      mget (mkMat ids.length fun _ _ => (0:ℚ)) i j ≤ 1 := by
    intro i j
    rw [mget_mkMat]
    split_ifs <;> norm_num
  have h1 := foldl_mat_preserve (applyPairRule (dictIndex ids))
    (applyPairRule_bounds (dictIndex ids)) pairs _ h0
  have h2 := foldl_mat_preserve (applyGroupRule (dictIndex ids))
    (applyGroupRule_bounds (dictIndex ids)) groups _ h1
  unfold build_exclusivity_from_rules
  dsimp only
  rw [mget_mkMat]
  split_ifs with hin hdiag
  · norm_num
  · exact h2 i j
  · norm_num


/-- C7 amended: Exclusivity construction fails when the matrix is
non-square, asymmetric beyond the np.allclose tolerance, or has a
diagonal entry beyond that tolerance; a successfully constructed
instance is NOT range-checked (entries may fall outside [0, 1]), but
every matrix produced by build_exclusivity_from_rules has all entries
in [0, 1]. -/
theorem c7_validation_checks_and_builder_range :
    (∀ (ids : List String) (M : List (List ℚ)) (d : ℚ),
        squareOf M ids.length = false → Exclusivity.mk? ids M d = none) ∧
    (∀ (ids : List String) (M : List (List ℚ)) (d : ℚ),
        allcloseSym M ids.length = false → Exclusivity.mk? ids M d = none) ∧
    (∀ (ids : List String) (M : List (List ℚ)) (d : ℚ),
        allcloseDiagZero M ids.length = false → Exclusivity.mk? ids M d = none) ∧
    (∀ (ids : List String) (pairs : List (String × String × ℚ))
        (groups : List (List String × ℚ)) (d : ℚ) (i j : ℕ),
        0 ≤ mget (build_exclusivity_from_rules ids pairs groups d).matrix i j ∧
        mget (build_exclusivity_from_rules ids pairs groups d).matrix i j ≤ 1) := by
  refine ⟨?_, ?_, ?_, fun ids pairs groups d i j =>
    build_exclusivity_entries_bounds ids pairs groups d i j⟩
  · intro ids M d h
    unfold Exclusivity.mk? exclusivityValid
    rw [h]
    rfl
  · intro ids M d h
    unfold Exclusivity.mk? exclusivityValid
    rw [h]
    simp
  · intro ids M d h
    unfold Exclusivity.mk? exclusivityValid
    rw [h]
    simp

/-- C7 witness: an asymmetric 2 x 2 matrix is rejected, and a pair rule
with weight 5 is clamped into [0, 1] by the rule builder. -/
theorem c7_validation_checks_witness :
    Exclusivity.mk? ["a", "b"] [[0, 1], [2, 0]] 0 = none ∧
    (0 ≤ mget (build_exclusivity_from_rules ["a", "b"] [("a", "b", 5)] [] 0).matrix 0 1 ∧
     mget (build_exclusivity_from_rules ["a", "b"] [("a", "b", 5)] [] 0).matrix 0 1 ≤ 1) := by
  constructor
  · refine c7_validation_checks_and_builder_range.2.1 ["a", "b"] [[0, 1], [2, 0]] 0 ?_
    norm_num [allcloseSym, allcloseScalar, mget, vget, List.range_succ,
      abs_of_nonneg, abs_of_nonpos]
  · exact c7_validation_checks_and_builder_range.2.2.2 ["a", "b"]
      [("a", "b", 5)] [] 0 0 1

/-- C8 amended: get returns the configured default whenever either id is
unknown (so an unknown-id diagonal lookup returns the default, not
necessarily 0); whenever the stored matrix is exactly symmetric,
get(a,b) = get(b,a) for all ids (the constructor validates symmetry
only up to the np.allclose tolerance, so this can fail by up to that
tolerance otherwise); and whenever the stored diagonal is exactly zero,
get(a,a) = 0 for every known id a. -/
theorem c8_get_default_symmetry_diagonal :
    ∀ E : Exclusivity,
      (∀ a b : String,
        (dictIndex E.ids a).isNone = true ∨ (dictIndex E.ids b).isNone = true →
        E.get a b = E.default) ∧
      ((∀ i j, mget E.matrix i j = mget E.matrix j i) →
        ∀ a b : String, E.get a b = E.get b a) ∧
      ((∀ i, mget E.matrix i i = 0) →
        ∀ a : String, (dictIndex E.ids a).isSome = true → E.get a a = 0) := by
  intro E
  refine ⟨?_, ?_, ?_⟩
  · intro a b h
    unfold Exclusivity.get
    rcases ha : dictIndex E.ids a with _ | i <;>
      rcases hb : dictIndex E.ids b with _ | j <;> simp [ha, hb] at h ⊢
  · intro hsym a b
    unfold Exclusivity.get
    rcases ha : dictIndex E.ids a with _ | i <;>
      rcases hb : dictIndex E.ids b with _ | j <;> simp [ha, hb]
    exact hsym i j
  · intro hdiag a ha
    unfold Exclusivity.get
    rcases h : dictIndex E.ids a with _ | i
    · rw [h] at ha
      simp at ha
    · simp [h]
      exact hdiag i

/-- C8 witness: the get properties at the concrete symmetric
zero-diagonal instance exC6. -/
theorem c8_get_default_symmetry_diagonal_witness :
    exC6.get "z" "w" = exC6.default ∧
    exC6.get "a" "b" = exC6.get "b" "a" ∧
    exC6.get "a" "a" = 0 := by
  have h := c8_get_default_symmetry_diagonal exC6
  have hsq : squareOf exC6.matrix 2 = true := by decide
  have hsym : ∀ i j, mget exC6.matrix i j = mget exC6.matrix j i := by
    refine mget_symm_of_bounded exC6.matrix 2 hsq ?_
    intro i hi j hj
    interval_cases i <;> interval_cases j <;> norm_num [exC6, mget, vget]
  have hdiag : ∀ i, mget exC6.matrix i i = 0 := by
    refine mget_diag_zero_of_bounded exC6.matrix 2 hsq ?_
    intro i hi
    interval_cases i <;> norm_num [exC6, mget, vget]
  refine ⟨h.1 "z" "w" (Or.inl (by rfl)), h.2.1 hsym "a" "b", h.2.2 hdiag "a" (by rfl)⟩


/-- Soundness invariant of the greedy Hickam scan: starting from a
cluster that is internally compatible and whose recorded mass is its
posterior mass, the scan result is internally compatible, its mass is
the posterior mass of the returned cluster, and a success carries at
least the mass threshold and at least two members. -/
theorem hickamScan_invariant (p : List ℚ) (Xi : List (List ℚ))
    (hsym : ∀ i j, mget Xi i j = mget Xi j i) :
    ∀ (idxs cluster : List ℕ) (mass : ℚ),
      List.Pairwise (fun a b => mget Xi a b ≤ HICKAM_MAX_PAIR_XI ∧
        mget Xi b a ≤ HICKAM_MAX_PAIR_XI) cluster →
      mass = (cluster.map (vget p)).sum →
      List.Pairwise (fun a b => mget Xi a b ≤ HICKAM_MAX_PAIR_XI ∧
          mget Xi b a ≤ HICKAM_MAX_PAIR_XI) (hickamScan p Xi idxs cluster mass).2.1 ∧
      (hickamScan p Xi idxs cluster mass).2.2
        = ((hickamScan p Xi idxs cluster mass).2.1.map (vget p)).sum ∧
      ((hickamScan p Xi idxs cluster mass).1 = true →
        HICKAM_MASS_THRESH ≤ (hickamScan p Xi idxs cluster mass).2.2 ∧
        2 ≤ (hickamScan p Xi idxs cluster mass).2.1.length) := by
  intro idxs
  induction idxs with
  | nil =>
    intro cluster mass hp hm
    simp only [hickamScan]
    exact ⟨hp, hm, fun h => by simp at h⟩
  | cons i rest ih =>
    intro cluster mass hp hm
    by_cases hz : vget p i = 0
    · simp only [hickamScan, if_pos hz]
      exact ⟨hp, hm, fun h => by simp at h⟩
    · by_cases hcomp : cluster.all (fun c => !(decide (mget Xi i c > HICKAM_MAX_PAIR_XI))) = true
      · have hp2 : List.Pairwise (fun a b => mget Xi a b ≤ HICKAM_MAX_PAIR_XI ∧
            mget Xi b a ≤ HICKAM_MAX_PAIR_XI) (cluster ++ [i]) := by
          rw [List.pairwise_append]
          refine ⟨hp, List.pairwise_singleton _ _, ?_⟩
          intro a ha b hb
          rw [List.mem_singleton] at hb
          rw [List.all_eq_true] at hcomp
          have hc := hcomp a ha
          simp only [Bool.not_eq_eq_eq_not, Bool.not_true, decide_eq_false_iff_not,
            not_lt] at hc
          rw [hb]
          exact ⟨by rw [hsym a i]; exact hc, hc⟩
        have hm2 : mass + vget p i = ((cluster ++ [i]).map (vget p)).sum := by
          rw [List.map_append, List.sum_append, hm]
          simp
        simp only [hickamScan, if_neg hz, hcomp, if_true]
        by_cases hguard : mass + vget p i ≥ HICKAM_MASS_THRESH ∧
            (cluster ++ [i]).length ≥ 2
        · rw [if_pos hguard]
          exact ⟨hp2, hm2, fun _ => ⟨hguard.1, hguard.2⟩⟩
        · rw [if_neg hguard]
          exact ih (cluster ++ [i]) (mass + vget p i) hp2 hm2
      · rw [Bool.not_eq_true] at hcomp
        simp only [hickamScan, if_neg hz, hcomp, Bool.false_eq_true, if_false]
        by_cases hguard : mass ≥ HICKAM_MASS_THRESH ∧ cluster.length ≥ 2
        · rw [if_pos hguard]
          exact ⟨hp, hm, fun _ => ⟨hguard.1, hguard.2⟩⟩
        · rw [if_neg hguard]
          exact ih cluster mass hp hm


/-- C5: whenever the greedy Hickam clustering reports success on a state
with a synced symmetric exclusivity, the returned cluster has at least
two members, every pair inside it has exclusivity at most
HICKAM_MAX_PAIR_XI, and the returned mass — the summed posterior mass
of the cluster — is at least HICKAM_MASS_THRESH. Moreover the scan
skips an incompatible candidate and continues, and a candidate with
exactly zero posterior halts the scan immediately with a failure. -/
theorem c5_hickam_cluster_soundness :
    (∀ (s : State) (E : Exclusivity),
      s.exclusivity = some E →
      listSetEq E.ids (s.hypotheses.map (·.id)) = true →
      (∀ i j, mget E.matrix i j = mget E.matrix j i) →
      (_hickam_cluster_ok s).2.1 = true →
      2 ≤ (_hickam_cluster_ok s).2.2.1.length ∧
      (∀ a ∈ (_hickam_cluster_ok s).2.2.1, ∀ b ∈ (_hickam_cluster_ok s).2.2.1,
        a ≠ b → mget E.matrix a b ≤ HICKAM_MAX_PAIR_XI) ∧
      HICKAM_MASS_THRESH ≤ (_hickam_cluster_ok s).2.2.2 ∧
      (_hickam_cluster_ok s).2.2.2
        = ((_hickam_cluster_ok s).2.2.1.map (vget s.posteriors)).sum) ∧
    (∀ (p : List ℚ) (Xi : List (List ℚ)) (i : ℕ) (rest cluster : List ℕ) (mass : ℚ),
      vget p i = 0 →
      hickamScan p Xi (i :: rest) cluster mass = (false, cluster, mass)) ∧
    (∀ (p : List ℚ) (Xi : List (List ℚ)) (i : ℕ) (rest cluster : List ℕ) (mass : ℚ),
      vget p i ≠ 0 →
      cluster.all (fun c => !(decide (mget Xi i c > HICKAM_MAX_PAIR_XI))) = false →
      ¬(mass ≥ HICKAM_MASS_THRESH ∧ cluster.length ≥ 2) →
      hickamScan p Xi (i :: rest) cluster mass = hickamScan p Xi rest cluster mass) := by
  refine ⟨?_, ?_, ?_⟩
  · intro s E hE hsync hsym hok
    have hs : ensure_exclusivity s = s := ensure_exclusivity_synced s E hE hsync
    by_cases hlen : s.hypotheses.length < 2
    · exfalso
      have hfail : _hickam_cluster_ok s = (s, false, [], 0) := by
        unfold _hickam_cluster_ok
        rw [hs, if_pos hlen]
      rw [hfail] at hok
      simp at hok
    · have heq : _hickam_cluster_ok s
          = (s, hickamScan s.posteriors E.matrix (argsortDesc s.posteriors) [] 0) := by
        unfold _hickam_cluster_ok
        rw [hs, if_neg hlen]
        dsimp only
        rw [hE, Option.getD_some]
      rw [heq] at hok ⊢
      have hinv := hickamScan_invariant s.posteriors E.matrix hsym
        (argsortDesc s.posteriors) [] 0 List.Pairwise.nil rfl
      have hsucc := hinv.2.2 hok
      refine ⟨hsucc.2, ?_, hsucc.1, hinv.2.1⟩
      intro a ha b hb hne
      have hRsym : Symmetric (fun a b => mget E.matrix a b ≤ HICKAM_MAX_PAIR_XI ∧
          mget E.matrix b a ≤ HICKAM_MAX_PAIR_XI) := fun x y h => ⟨h.2, h.1⟩
      exact (hinv.1.forall hRsym ha hb hne).1
  · intro p Xi i rest cluster mass hz
    simp only [hickamScan, if_pos hz]
  · intro p Xi i rest cluster mass hz hcomp hguard
    simp only [hickamScan, if_neg hz, hcomp, Bool.false_eq_true, if_false]
    rw [if_neg hguard]


/-- C5 witness: the soundness properties at the specification scenario,
where the scan succeeds with cluster positions [0, 1, 2] (the three
compatible hypotheses), mass 0.9, and the fourth hypothesis excluded. -/
theorem c5_hickam_cluster_soundness_witness :
    (_hickam_cluster_ok stateC5).2.1 = true ∧
    2 ≤ (_hickam_cluster_ok stateC5).2.2.1.length ∧
    HICKAM_MASS_THRESH ≤ (_hickam_cluster_ok stateC5).2.2.2 ∧
    (_hickam_cluster_ok stateC5).2.2.2
      = ((_hickam_cluster_ok stateC5).2.2.1.map (vget stateC5.posteriors)).sum := by
  have hens : ensure_exclusivity stateC5 = stateC5 :=
    ensure_exclusivity_synced stateC5 exC5 rfl (by rfl)
  have hsort : argsortDesc stateC5.posteriors = [0, 1, 2, 3] := by
    norm_num [stateC5, argsortDesc, insertDesc, List.range_succ, vget]
  have hscan : hickamScan stateC5.posteriors exC5.matrix [0, 1, 2, 3] [] 0
      = (true, [0, 1, 2], 9/10) := by
    norm_num [hickamScan, stateC5, exC5, mget, vget, HICKAM_MASS_THRESH,
      HICKAM_MAX_PAIR_XI]
  have heval : _hickam_cluster_ok stateC5 = (stateC5, true, [0, 1, 2], 9/10) := by
    unfold _hickam_cluster_ok
    rw [hens, if_neg (by norm_num [stateC5])]
    dsimp only
    rw [show stateC5.exclusivity = some exC5 from rfl, Option.getD_some, hsort, hscan]
  have hok : (_hickam_cluster_ok stateC5).2.1 = true := by rw [heval]
  have hsq : squareOf exC5.matrix 4 = true := by decide
  have hsym : ∀ i j, mget exC5.matrix i j = mget exC5.matrix j i := by
    refine mget_symm_of_bounded exC5.matrix 4 hsq ?_
    intro i hi j hj
    interval_cases i <;> interval_cases j <;> norm_num [exC5, mget, vget]
  have h := c5_hickam_cluster_soundness.1 stateC5 exC5 rfl (by rfl) hsym hok
  exact ⟨hok, h.1, h.2.2.1, h.2.2.2⟩

end Nepsis
